import Mathlib

/-!
Verification of the gnet buffer subsystem: the linked-list chunk buffer
(`pkg/buffer/linkedlist/linked_list_buffer.go`) and the elastic buffer
(package `elastic`), shallowly embedded in Lean.

Bytes are modelled as `Nat`, byte slices as `List Nat`.  Go `int` counters
that the code subtracts from are modelled as `Int` so that ill-formed states
behave exactly as the source would.  `io.Writer` / `io.Reader` collaborators
are modelled as deterministic response functions indexed by the call number,
which covers every sequence of responses a deterministic stateful
writer/reader can produce.

The ring buffer (`pkg/buffer/ring`) and the byte-buffer / ring-buffer pools
are not part of the sources; they are modelled from the specification (see
the doc comments on `RingBuf` and its operations).
-/

set_option maxRecDepth 4000

/-- Go error values that appear in the buffer code: `io.EOF`,
`io.ErrShortWrite`, `errors.ErrNegativeSize`, and a catch-all. -/
inductive GErr where
  | eof : GErr
  | shortWrite : GErr
  | negativeSize : GErr
  | generic : Nat → GErr
deriving DecidableEq, Repr

/-- A deterministic `io.Writer`: call number `i` with argument slice `c`
returns the pair Go's `w.Write(c)` returns, an accepted byte count and an
optional error. -/
def GWriter : Type := Nat → List Nat → Nat × Option GErr

/-- A deterministic `io.Reader`: call number `i` returns the bytes produced
by Go's `r.Read` together with its optional error. -/
def GReader : Type := Nat → List Nat × Option GErr

/-- `math.MaxInt32`, used by the Go code to normalize non-positive peek
sizes. -/
def maxInt32 : Int := 2147483647

/-- Concatenation of a list of chunks into a single byte stream. -/
def concatChunks : List (List Nat) → List Nat
  | [] => []
  | c :: cs => c ++ concatChunks cs

/-- Total number of bytes in a list of slices. -/
def sumLens (bs : List (List Nat)) : Nat := (bs.map List.length).sum

namespace linkedlist

/-- `linkedlist.Buffer`: the linked list of byte chunks.  The `head`/`tail`
pointer chain is represented by the list `chunks`; `size` and `bytes` are
the Go struct's counter fields (Go `int`, hence `Int`). -/
structure Buffer where
  chunks : List (List Nat)
  size : Int
  bytes : Int
deriving DecidableEq, Repr

/-- `Buffer.Len`: number of nodes in the list. -/
def Buffer.Len (l : Buffer) : Int := l.size

/-- `Buffer.Buffered`: the `bytes` counter. -/
def Buffer.Buffered (l : Buffer) : Int := l.bytes

/-- `Buffer.IsEmpty`: `head == nil`. -/
def Buffer.IsEmpty (l : Buffer) : Bool := l.chunks.isEmpty

/-- `Buffer.Pop`: remove and return the head node, updating both counters;
returns `none` on an empty list. -/
def Buffer.Pop : Buffer → Option (List Nat) × Buffer
  | ⟨[], s, b⟩ => (none, ⟨[], s, b⟩)
  | ⟨c :: cs, s, b⟩ => (some c, ⟨cs, s - 1, b - c.length⟩)

/-- `Buffer.PushFront`: add a node at the head, updating both counters. -/
def Buffer.PushFront (c : List Nat) (l : Buffer) : Buffer :=
  ⟨c :: l.chunks, l.size + 1, l.bytes + c.length⟩

/-- `Buffer.PushBack`: add a node at the tail, updating both counters. -/
def Buffer.PushBack (c : List Nat) (l : Buffer) : Buffer :=
  ⟨l.chunks ++ [c], l.size + 1, l.bytes + c.length⟩

/-- `Buffer.PushBytesFront`: wrapper of `PushFront` taking a byte slice; a
zero-length slice is ignored. -/
def Buffer.PushBytesFront (p : List Nat) (l : Buffer) : Buffer :=
  if p.length = 0 then l else l.PushFront p

/-- `Buffer.PushBytesBack`: wrapper of `PushBack` taking a byte slice; a
zero-length slice is ignored. -/
def Buffer.PushBytesBack (p : List Nat) (l : Buffer) : Buffer :=
  if p.length = 0 then l else l.PushBack p

/-- The loop body of `Buffer.Read`, recursing over the popped chunks.
`r` is the remaining room in the destination slice (positive on entry);
`cs`, `s`, `b` are the fields of the buffer being popped from.  A partially
copied chunk is re-pushed at the head with its slice advanced. -/
def readAux : Nat → List (List Nat) → Int → Int → List Nat × Buffer
  | _, [], s, b => ([], ⟨[], s, b⟩)
  | r, c :: cs, s, b =>
    if r < c.length then
      (c.take r, Buffer.PushFront (c.drop r) ⟨cs, s - 1, b - c.length⟩)
    else if r = c.length then
      (c, ⟨cs, s - 1, b - c.length⟩)
    else
      let res := readAux (r - c.length) cs (s - 1) (b - (c.length : Int))
      (c ++ res.1, res.2)

/-- `Buffer.Read` into a destination of length `k`: returns the bytes copied
(the Go function returns their count `n` and a nil error) and the updated
buffer. -/
def Buffer.Read (k : Nat) (l : Buffer) : List Nat × Buffer :=
  if k = 0 then ([], l) else readAux k l.chunks l.size l.bytes

/-- The loop body of `Buffer.Discard`.  `n` is the positive remaining byte
count; a partially discarded chunk is re-pushed at the head with its slice
advanced. -/
def discardAux : Nat → List (List Nat) → Int → Int → Nat × Buffer
  | _, [], s, b => (0, ⟨[], s, b⟩)
  | n, c :: cs, s, b =>
    if n < c.length then
      (n, Buffer.PushFront (c.drop n) ⟨cs, s - 1, b - c.length⟩)
    else if n = c.length then
      (n, ⟨cs, s - 1, b - c.length⟩)
    else
      let res := discardAux (n - c.length) cs (s - 1) (b - (c.length : Int))
      (c.length + res.1, res.2)

/-- `Buffer.Discard`: drop `n` bytes from the head; non-positive `n` is a
no-op returning 0. -/
def Buffer.Discard (n : Int) (l : Buffer) : Int × Buffer :=
  if n ≤ 0 then (0, l)
  else
    let res := discardAux n.toNat l.chunks l.size l.bytes
    ((res.1 : Int), res.2)

/-- The loop of `Buffer.PeekBytesList`: append chunk slices until the
accumulated byte count `cum` reaches `maxB`. -/
def peekAux (maxB : Nat) : Nat → List (List Nat) → List (List Nat)
  | _, [] => []
  | cum, c :: cs =>
    c :: (if maxB ≤ cum + c.length then [] else peekAux maxB (cum + c.length) cs)

/-- `Buffer.PeekBytesList`: assemble up to `maxBytes` of byte slices from
the nodes without removing them; non-positive `maxBytes` means
`math.MaxInt32`. -/
def Buffer.PeekBytesList (n : Int) (l : Buffer) : List (List Nat) :=
  let maxB := if n ≤ 0 then maxInt32 else n
  peekAux maxB.toNat 0 l.chunks

/-- The loops of `Buffer.PeekBytesListWithBytes`: first the extra slices
(skipping empty ones, returning early once `maxB` is reached), then the
list's own chunks. -/
def peekWithAux (maxB : Nat) : Nat → List (List Nat) → List (List Nat) → List (List Nat)
  | cum, [], cs => peekAux maxB cum cs
  | cum, bq :: bs, cs =>
    if bq.length = 0 then peekWithAux maxB cum bs cs
    else bq :: (if maxB ≤ cum + bq.length then [] else peekWithAux maxB (cum + bq.length) bs cs)

/-- `Buffer.PeekBytesListWithBytes`: like `PeekBytesList` but with extra
byte slices placed before the list's chunks. -/
def Buffer.PeekBytesListWithBytes (n : Int) (bs : List (List Nat)) (l : Buffer) : List (List Nat) :=
  let maxB := if n ≤ 0 then maxInt32 else n
  peekWithAux maxB.toNat 0 bs l.chunks

/-- The loop of `Buffer.ReadFrom`: call the reader, count the bytes, push a
chunk per successful call; `io.EOF` ends the loop with a nil error, other
errors are returned; the chunk of an erroring call is released, not pushed.
`fuel` bounds the number of iterations (the Go loop only ends on a reader
error); `none` means the fuel ran out. -/
def readFromAux (rd : GReader) : Nat → Nat → Nat → Buffer → Option (Nat × Option GErr × Buffer)
  | 0, _, _, _ => none
  | fuel + 1, i, n, l =>
    let r := rd i
    match r.2 with
    | some GErr.eof => some (n + r.1.length, none, l)
    | some e => some (n + r.1.length, some e, l)
    | none => readFromAux rd fuel (i + 1) (n + r.1.length) (l.PushBack r.1)

/-- `Buffer.ReadFrom` with iteration fuel. -/
def Buffer.ReadFrom (rd : GReader) (fuel : Nat) (l : Buffer) : Option (Nat × Option GErr × Buffer) :=
  readFromAux rd fuel 0 0 l

/-- The loop of `Buffer.WriteTo`: pop a chunk, hand it to the writer (call
`i`), accumulate the accepted count; a writer error returns that error with
the chunk dropped; a short write re-pushes the remainder at the head and
returns `io.ErrShortWrite`.  `none` models the `panic` on an over-reporting
writer. -/
def writeToAux (w : GWriter) : Nat → List (List Nat) → Int → Int → Option (Nat × Option GErr × Buffer)
  | _, [], s, b => some (0, none, ⟨[], s, b⟩)
  | i, c :: cs, s, b =>
    let r := w i c
    if c.length < r.1 then none
    else if r.2.isSome then some (r.1, r.2, ⟨cs, s - 1, b - c.length⟩)
    else if r.1 < c.length then
      some (r.1, some GErr.shortWrite, Buffer.PushFront (c.drop r.1) ⟨cs, s - 1, b - c.length⟩)
    else
      match writeToAux w (i + 1) cs (s - 1) (b - (c.length : Int)) with
      | none => none
      | some (n, e, l2) => some (r.1 + n, e, l2)

/-- `Buffer.WriteTo`. -/
def Buffer.WriteTo (w : GWriter) (l : Buffer) : Option (Nat × Option GErr × Buffer) :=
  writeToAux w 0 l.chunks l.size l.bytes

/-- `Buffer.Reset`: remove all nodes and zero the counters. -/
def Buffer.Reset (_ : Buffer) : Buffer := ⟨[], 0, 0⟩

/-- Byte stream held by the list buffer (concatenation of its chunks). -/
def Buffer.Concat (l : Buffer) : List Nat := concatChunks l.chunks

/-- The invariant of the linked chunk buffer: the `bytes` counter equals the
sum of the lengths of the chunks in the list. -/
def Buffer.WFBytes (l : Buffer) : Prop := l.bytes = (sumLens l.chunks : Int)

instance (l : Buffer) : Decidable l.WFBytes := by
  unfold Buffer.WFBytes; infer_instance

end linkedlist

/-- Modelled from the spec: `pkg/buffer/ring.Buffer` is not among the
sources.  Per the spec it is a circular byte region of capacity `cap`
holding `data` (`size == tail - head`, `size ≤ capacity`), growing by
doubling when a write exceeds the available space.  The head/tail indices
are abstracted away: `data` is the readable byte sequence. -/
structure RingBuf where
  data : List Nat
  cap : Nat
deriving DecidableEq, Repr

/-- Modelled from the spec: ring `Buffered()` is the readable byte count. -/
def RingBuf.Buffered (rb : RingBuf) : Int := rb.data.length

/-- Modelled from the spec: ring `Len()` is the size of the underlying byte
region (its capacity). -/
def RingBuf.Len (rb : RingBuf) : Int := rb.cap

/-- Modelled from the spec: ring `Available()` is the free space. -/
def RingBuf.Available (rb : RingBuf) : Int := (rb.cap : Int) - rb.data.length

/-- Modelled from the spec: ring `IsEmpty()`. -/
def RingBuf.IsEmpty (rb : RingBuf) : Bool := rb.data.isEmpty

/-- The doubling loop of capacity growth: double `c` until `needed` bytes
fit, with structural fuel (`needed` iterations always suffice for a
positive start). -/
def growCapAux : Nat → Nat → Nat → Nat
  | 0, c, _ => c
  | fuel + 1, c, needed => if needed ≤ c then c else growCapAux fuel (2 * c) needed

/-- Modelled from the spec: capacity growth by doubling until `needed`
bytes fit. -/
def growCap (c needed : Nat) : Nat :=
  if c = 0 then needed else growCapAux needed c needed

/-- Modelled from the spec: ring `Write(p)` appends `p`, doubling the
capacity as needed; it accepts the whole slice (per §7, ring overflow is
not an error: the region grows). -/
def RingBuf.Write (p : List Nat) (rb : RingBuf) : Nat × RingBuf :=
  (p.length, ⟨rb.data ++ p, growCap rb.cap (rb.data.length + p.length)⟩)

/-- Modelled from the spec: ring `Read` into a destination of length `k`
returns the first `min k size` buffered bytes and consumes them. -/
def RingBuf.Read (k : Nat) (rb : RingBuf) : List Nat × RingBuf :=
  (rb.data.take k, ⟨rb.data.drop k, rb.cap⟩)

/-- Modelled from the spec: ring `Peek(n)` returns two contiguous slices
(head segment and wrap-around segment) covering the first `min n size`
buffered bytes without copying.  The flat model has no wrap: the second
slice is empty. -/
def RingBuf.PeekPair (n : Nat) (rb : RingBuf) : List Nat × List Nat :=
  (rb.data.take n, [])

/-- Modelled from the spec: ring `Discard(n)` drops `min n size` buffered
bytes and reports how many were dropped; non-positive `n` is a no-op. -/
def RingBuf.Discard (n : Int) (rb : RingBuf) : Nat × RingBuf :=
  if n ≤ 0 then (0, rb)
  else (min n.toNat rb.data.length, ⟨rb.data.drop n.toNat, rb.cap⟩)

/-- Modelled from the spec: ring `WriteTo(w)` drains the buffered bytes to
the writer (call number `i`); a short write discards what was accepted and
returns `io.ErrShortWrite`; an empty ring writes nothing.  Returns the
accepted count, the error, the updated ring and the next writer call
number; `none` models a panic on an over-reporting writer. -/
def RingBuf.WriteTo (w : GWriter) (i : Nat) (rb : RingBuf) :
    Option (Nat × Option GErr × RingBuf × Nat) :=
  if rb.data.isEmpty then some (0, none, rb, i)
  else
    let r := w i rb.data
    if rb.data.length < r.1 then none
    else if r.2.isSome then some (r.1, r.2, ⟨rb.data.drop r.1, rb.cap⟩, i + 1)
    else if r.1 < rb.data.length then
      some (r.1, some GErr.shortWrite, ⟨rb.data.drop r.1, rb.cap⟩, i + 1)
    else some (r.1, none, ⟨[], rb.cap⟩, i + 1)

/-- Modelled from the spec: the default capacity of a pool-acquired ring
buffer. -/
def ringDefaultCap : Nat := 1024

/-- Modelled from the spec: `rbPool.Get()` hands out an empty ring buffer
of the default capacity. -/
def rbPoolGet : RingBuf := ⟨[], ringDefaultCap⟩

namespace elastic

/-- `elastic.Buffer`: the pair of an optional ring buffer and a list
buffer, with the spill watermark `maxStaticBytes`. -/
structure Buffer where
  maxStaticBytes : Int
  ringBuffer : Option RingBuf
  listBuffer : linkedlist.Buffer
deriving DecidableEq, Repr

/-- `elastic.New`: rejects a non-positive watermark with
`ErrNegativeSize`, otherwise acquires a fresh ring buffer from the pool. -/
def New (maxStaticBytes : Int) : Except GErr Buffer :=
  if maxStaticBytes ≤ 0 then Except.error GErr.negativeSize
  else Except.ok ⟨maxStaticBytes, some rbPoolGet, ⟨[], 0, 0⟩⟩

/-- The common prelude of `Write`/`Writev`/`ReadFrom`: when the ring is nil
and the list is empty, re-acquire a ring buffer from the pool. -/
def Buffer.ensureRing (mb : Buffer) : Buffer :=
  if mb.ringBuffer.isNone && mb.listBuffer.IsEmpty then
    { mb with ringBuffer := some rbPoolGet }
  else mb

/-- `elastic.Buffer.Buffered`. -/
def Buffer.Buffered (mb : Buffer) : Int :=
  match mb.ringBuffer with
  | none => mb.listBuffer.Buffered
  | some rb => rb.Buffered + mb.listBuffer.Buffered

/-- `elastic.Buffer.IsEmpty`. -/
def Buffer.IsEmpty (mb : Buffer) : Bool :=
  match mb.ringBuffer with
  | none => mb.listBuffer.IsEmpty
  | some rb => rb.IsEmpty && mb.listBuffer.IsEmpty

/-- `elastic.Buffer.Read` into a destination of length `k`: drain the ring
first, release it to the pool if it became empty, then read the rest from
the list. -/
def Buffer.Read (k : Nat) (mb : Buffer) : List Nat × Buffer :=
  match mb.ringBuffer with
  | none =>
    let r := mb.listBuffer.Read k
    (r.1, { mb with listBuffer := r.2 })
  | some rb =>
    let r := rb.Read k
    let ring2 := if r.2.IsEmpty then none else some r.2
    if r.1.length = k then (r.1, { mb with ringBuffer := ring2 })
    else
      let r2 := mb.listBuffer.Read (k - r.1.length)
      (r.1 ++ r2.1, { mb with ringBuffer := ring2, listBuffer := r2.2 })

/-- `elastic.Buffer.Peek`: the ring's two slices, completed from the list
when they do not cover `n` bytes; non-positive `n` means `math.MaxInt32`. -/
def Buffer.Peek (n : Int) (mb : Buffer) : List (List Nat) :=
  match mb.ringBuffer with
  | none => mb.listBuffer.PeekBytesList n
  | some rb =>
    let n2 : Int := if n ≤ 0 then maxInt32 else n
    let pair := rb.PeekPair n2.toNat
    if rb.Buffered ≥ n2 then [pair.1, pair.2]
    else mb.listBuffer.PeekBytesListWithBytes n2 [pair.1, pair.2]

/-- `elastic.Buffer.Discard`: discard from the ring first, releasing it to
the pool on an exact or past-the-end drain, then from the list. -/
def Buffer.Discard (n : Int) (mb : Buffer) : Int × Buffer :=
  match mb.ringBuffer with
  | none =>
    let r := mb.listBuffer.Discard n
    (r.1, { mb with listBuffer := r.2 })
  | some rb =>
    let rbLen := rb.Buffered
    let r := rb.Discard n
    if n ≤ rbLen then
      if n = rbLen then ((r.1 : Int), { mb with ringBuffer := none })
      else ((r.1 : Int), { mb with ringBuffer := some r.2 })
    else
      let r2 := mb.listBuffer.Discard (n - rbLen)
      ((r.1 : Int) + r2.1, { mb with ringBuffer := none, listBuffer := r2.2 })

/-- `elastic.Buffer.Write`: append to the list when it is non-empty or the
ring holds at least the watermark; otherwise, when the ring's region is at
least the watermark and the payload exceeds its available space, fill the
ring and spill the remainder to the list; otherwise write into the ring. -/
def Buffer.Write (p : List Nat) (mb0 : Buffer) : Nat × Option GErr × Buffer :=
  let mb := mb0.ensureRing
  match mb.ringBuffer with
  | none => (p.length, none, { mb with listBuffer := mb.listBuffer.PushBytesBack p })
  | some rb =>
    if mb.listBuffer.IsEmpty = false ∨ rb.Buffered ≥ mb.maxStaticBytes then
      (p.length, none, { mb with listBuffer := mb.listBuffer.PushBytesBack p })
    else if rb.Len ≥ mb.maxStaticBytes ∧ (p.length : Int) > rb.Available then
      let writable := rb.cap - rb.data.length
      (p.length, none,
        { mb with
          ringBuffer := some (rb.Write (p.take writable)).2,
          listBuffer := mb.listBuffer.PushBytesBack (p.drop writable) })
    else
      let r := rb.Write p
      (r.1, none, { mb with ringBuffer := some r.2 })

/-- Push a sequence of byte slices at the back of a list buffer, in order
(the per-slice loops of `Writev`'s list paths). -/
def pushAllBack (bs : List (List Nat)) (lb : linkedlist.Buffer) : linkedlist.Buffer :=
  bs.foldl (fun l bq => l.PushBytesBack bq) lb

/-- The main loop of `elastic.Buffer.Writev`: fill the ring with successive
slices while they fit the running `writable` budget; at the first slice
that does not fit, fill the ring with its prefix, spill its remainder and
every later slice to the list.  Returns the cumulative byte count, the
ring and the list. -/
def writevAux : List (List Nat) → Nat → Nat → RingBuf → linkedlist.Buffer →
    Nat × RingBuf × linkedlist.Buffer
  | [], _, cum, rb, lb => (cum, rb, lb)
  | bq :: rest, writable, cum, rb, lb =>
    if writable < bq.length then
      let rb2 := (rb.Write (bq.take writable)).2
      let lb2 := lb.PushBytesBack (bq.drop writable)
      (cum + bq.length + sumLens rest, rb2, pushAllBack rest lb2)
    else
      writevAux rest (writable - bq.length) (cum + bq.length) (rb.Write bq).2 lb

/-- `elastic.Buffer.Writev`: append the slices to the list when it is
non-empty or the ring holds at least the watermark; otherwise run the fill
loop with a writable budget of `W - Buffered` when the ring's region is
below the watermark, else the ring's available space. -/
def Buffer.Writev (bs : List (List Nat)) (mb0 : Buffer) : Nat × Option GErr × Buffer :=
  let mb := mb0.ensureRing
  match mb.ringBuffer with
  | none => (sumLens bs, none, { mb with listBuffer := pushAllBack bs mb.listBuffer })
  | some rb =>
    if mb.listBuffer.IsEmpty = false ∨ rb.Buffered ≥ mb.maxStaticBytes then
      (sumLens bs, none, { mb with listBuffer := pushAllBack bs mb.listBuffer })
    else
      let writable :=
        if rb.Len < mb.maxStaticBytes then (mb.maxStaticBytes - rb.Buffered).toNat
        else rb.cap - rb.data.length
      let r := writevAux bs writable 0 rb mb.listBuffer
      (r.1, none, { mb with ringBuffer := some r.2.1, listBuffer := r.2.2 })

/-- `elastic.Buffer.WriteTo`: drain the ring to the writer first, release
it to the pool if it became empty, stop on a ring-stage error, then drain
the list (the writer continues at the next call number). -/
def Buffer.WriteTo (w : GWriter) (mb : Buffer) : Option (Nat × Option GErr × Buffer) :=
  match mb.ringBuffer with
  | none =>
    match mb.listBuffer.WriteTo w with
    | none => none
    | some (n, e, l2) => some (n, e, { mb with listBuffer := l2 })
  | some rb =>
    match rb.WriteTo w 0 with
    | none => none
    | some (n, e, rb2, i) =>
      let ring2 := if rb2.IsEmpty then none else some rb2
      if e.isSome then some (n, e, { mb with ringBuffer := ring2 })
      else
        match mb.listBuffer.WriteTo (fun j c => w (i + j) c) with
        | none => none
        | some (m, e2, l2) =>
          some (n + m, e2, { mb with ringBuffer := ring2, listBuffer := l2 })

/-- Byte stream held by the elastic buffer: ring content first, then the
list content. -/
def Buffer.Contents (mb : Buffer) : List Nat :=
  (match mb.ringBuffer with
   | none => []
   | some rb => rb.data) ++ mb.listBuffer.Concat

/-- Sequential element-wise writes, following the words of the spec's
`Writev` clause ("equivalent applied element-wise, tracked by a running
writable count"): apply `Write` to each slice in order, summing the
returned counts.  Used to compare `Writev` against its claimed
element-wise equivalent. -/
def Buffer.WriteAll (bs : List (List Nat)) (mb : Buffer) : Nat × Buffer :=
  bs.foldl (fun acc bq => ((acc.1 + (acc.2.Write bq).1 : Nat), (acc.2.Write bq).2.2)) (0, mb)

end elastic

/-! ## Basic lemmas about streams of chunks -/

@[simp]
theorem concatChunks_nil : concatChunks [] = [] := rfl

@[simp]
theorem concatChunks_cons (c : List Nat) (cs : List (List Nat)) :
    concatChunks (c :: cs) = c ++ concatChunks cs := rfl

theorem concatChunks_append (xs ys : List (List Nat)) :
    concatChunks (xs ++ ys) = concatChunks xs ++ concatChunks ys := by
  induction xs with
  | nil => simp
  | cons c cs ih => simp [ih]

@[simp]
theorem sumLens_nil : sumLens [] = 0 := rfl

@[simp]
theorem sumLens_cons (c : List Nat) (cs : List (List Nat)) :
    sumLens (c :: cs) = c.length + sumLens cs := rfl

theorem sumLens_append (xs ys : List (List Nat)) :
    sumLens (xs ++ ys) = sumLens xs + sumLens ys := by
  induction xs with
  | nil => simp
  | cons c cs ih => simp [ih]; omega

theorem length_concatChunks (cs : List (List Nat)) :
    (concatChunks cs).length = sumLens cs := by
  induction cs with
  | nil => simp
  | cons c cs ih => simp [ih]

namespace linkedlist

/-! ## Lemmas about the linked chunk buffer -/

theorem Concat_PushBack (l : Buffer) (c : List Nat) :
    (l.PushBack c).Concat = l.Concat ++ c := by
  simp [Buffer.PushBack, Buffer.Concat, concatChunks_append]

theorem Concat_PushBytesBack (l : Buffer) (p : List Nat) :
    (l.PushBytesBack p).Concat = l.Concat ++ p := by
  unfold Buffer.PushBytesBack
  by_cases h : p.length = 0
  · simp_all [List.length_eq_zero.mp h]
  · simp [h, Concat_PushBack]

theorem chunks_PushBytesBack_of_ne (l : Buffer) (p : List Nat) (h : p ≠ []) :
    (l.PushBytesBack p).chunks = l.chunks ++ [p] := by
  unfold Buffer.PushBytesBack Buffer.PushBack
  simp [List.length_eq_zero, h]

/-- `Read` returns the first `r` bytes of the stream (the loop part). -/
theorem readAux_fst (r : Nat) (cs : List (List Nat)) (s b : Int) (hr : 0 < r) :
    (readAux r cs s b).1 = (concatChunks cs).take r := by
  induction cs generalizing r s b with
  | nil => simp [readAux]
  | cons c cs ih =>
    unfold readAux
    by_cases h1 : r < c.length
    · simp only [if_pos h1, concatChunks_cons]
      rw [List.take_append_of_le_length (by omega)]
    · by_cases h2 : r = c.length
      · simp only [if_neg h1, if_pos h2, concatChunks_cons]
        rw [List.take_append_of_le_length (by omega), h2, List.take_length]
      · simp only [if_neg h1, if_neg h2, concatChunks_cons]
        rw [List.take_append_eq_append_take, List.take_of_length_le (by omega),
          ih (r - c.length) (s - 1) (b - c.length) (by omega)]

/-- The states after `Read`'s loop and `Discard`'s loop coincide. -/
theorem readAux_snd_eq_discardAux_snd (r : Nat) (cs : List (List Nat)) (s b : Int) :
    (readAux r cs s b).2 = (discardAux r cs s b).2 := by
  induction cs generalizing r s b with
  | nil => simp [readAux, discardAux]
  | cons c cs ih =>
    unfold readAux discardAux
    by_cases h1 : r < c.length
    · simp [h1]
    · by_cases h2 : r = c.length
      · simp [h1, h2]
      · simp only [if_neg h1, if_neg h2]
        exact ih (r - c.length) (s - 1) (b - c.length)

/-- `Discard`'s loop discards `min r (total bytes)` and reports it. -/
theorem discardAux_fst (r : Nat) (cs : List (List Nat)) (s b : Int) :
    (discardAux r cs s b).1 = min r (sumLens cs) := by
  induction cs generalizing r s b with
  | nil => simp [discardAux]
  | cons c cs ih =>
    unfold discardAux
    by_cases h1 : r < c.length
    · simp only [if_pos h1, sumLens_cons]; omega
    · by_cases h2 : r = c.length
      · simp only [if_neg h1, if_pos h2, sumLens_cons]; omega
      · simp only [if_neg h1, if_neg h2, sumLens_cons,
          ih (r - c.length) (s - 1) (b - c.length)]
        omega

/-- `Discard`'s loop decrements the `bytes` counter by exactly the
discarded count. -/
theorem discardAux_bytes (r : Nat) (cs : List (List Nat)) (s b : Int) :
    (discardAux r cs s b).2.bytes = b - (discardAux r cs s b).1 := by
  induction cs generalizing r s b with
  | nil => simp [discardAux]
  | cons c cs ih =>
    unfold discardAux
    by_cases h1 : r < c.length
    · simp only [if_pos h1, Buffer.PushFront]
      simp [List.length_drop]
      omega
    · by_cases h2 : r = c.length
      · simp only [if_neg h1, if_pos h2]; simp; omega
      · simp only [if_neg h1, if_neg h2]
        simp only [ih (r - c.length) (s - 1) (b - c.length)]
        push_cast
        omega

/-- The chunk list after `Discard`'s loop holds the dropped stream. -/
theorem discardAux_concat (r : Nat) (cs : List (List Nat)) (s b : Int) (hr : 0 < r) :
    concatChunks (discardAux r cs s b).2.chunks = (concatChunks cs).drop r := by
  induction cs generalizing r s b with
  | nil => simp [discardAux]
  | cons c cs ih =>
    unfold discardAux
    by_cases h1 : r < c.length
    · simp only [if_pos h1, Buffer.PushFront]
      simp only [concatChunks_cons]
      rw [List.drop_append_of_le_length (by omega)]
    · by_cases h2 : r = c.length
      · simp only [if_neg h1, if_pos h2, concatChunks_cons]
        rw [List.drop_append_of_le_length (by omega), h2, List.drop_length]
        simp
      · simp only [if_neg h1, if_neg h2, concatChunks_cons,
          ih (r - c.length) (s - 1) (b - c.length) (by omega)]
        rw [List.drop_append_eq_append_drop,
          List.drop_eq_nil_of_le (show c.length ≤ r by omega)]
        simp

theorem WFBytes_PushFront {l : Buffer} (c : List Nat) (h : l.WFBytes) :
    (l.PushFront c).WFBytes := by
  unfold Buffer.WFBytes Buffer.PushFront at *
  simp [h]
  omega

theorem WFBytes_PushBack {l : Buffer} (c : List Nat) (h : l.WFBytes) :
    (l.PushBack c).WFBytes := by
  unfold Buffer.WFBytes Buffer.PushBack at *
  simp [h, sumLens_append]

theorem WFBytes_PushBytesBack {l : Buffer} (p : List Nat) (h : l.WFBytes) :
    (l.PushBytesBack p).WFBytes := by
  unfold Buffer.PushBytesBack
  by_cases hp : p.length = 0
  · simpa [hp]
  · simpa [hp] using WFBytes_PushBack p h

theorem WFBytes_PushBytesFront {l : Buffer} (p : List Nat) (h : l.WFBytes) :
    (l.PushBytesFront p).WFBytes := by
  unfold Buffer.PushBytesFront
  by_cases hp : p.length = 0
  · simpa [hp]
  · simpa [hp] using WFBytes_PushFront p h

theorem WFBytes_Pop {l : Buffer} (h : l.WFBytes) : (l.Pop).2.WFBytes := by
  obtain ⟨cs, s, b⟩ := l
  cases cs with
  | nil => simpa [Buffer.Pop] using h
  | cons c cs =>
    unfold Buffer.WFBytes at *
    simp [Buffer.Pop] at *
    omega

theorem discardAux_WF (r : Nat) (cs : List (List Nat)) (s b : Int) (hr : 0 < r)
    (h : b = (sumLens cs : Int)) :
    (discardAux r cs s b).2.WFBytes := by
  unfold Buffer.WFBytes
  rw [discardAux_bytes, discardAux_fst,
    ← length_concatChunks ((discardAux r cs s b).2.chunks),
    discardAux_concat r cs s b hr, List.length_drop, length_concatChunks, h]
  omega

theorem readAux_WF (r : Nat) (cs : List (List Nat)) (s b : Int) (hr : 0 < r)
    (h : b = (sumLens cs : Int)) :
    (readAux r cs s b).2.WFBytes := by
  rw [Buffer.WFBytes, readAux_snd_eq_discardAux_snd]
  exact discardAux_WF r cs s b hr h

theorem writeToAux_WF (w : GWriter) (i : Nat) (cs : List (List Nat)) (s b : Int)
    (h : b = (sumLens cs : Int)) (res : Nat × Option GErr × Buffer)
    (hres : writeToAux w i cs s b = some res) : res.2.2.WFBytes := by
  induction cs generalizing i s b res with
  | nil =>
    simp only [writeToAux, Option.some.injEq] at hres
    subst hres
    simpa [Buffer.WFBytes] using h
  | cons c cs ih =>
    unfold writeToAux at hres
    by_cases h1 : c.length < (w i c).1
    · simp [h1] at hres
    · by_cases h2 : (w i c).2.isSome
      · simp only [if_neg h1, if_pos h2, Option.some.injEq] at hres
        subst hres
        simp only [Buffer.WFBytes] at *
        simp at h ⊢
        omega
      · by_cases h3 : (w i c).1 < c.length
        · simp only [if_neg h1, h2, if_pos h3, Bool.false_eq_true, if_false,
            Option.some.injEq] at hres
          subst hres
          simp only [Buffer.WFBytes, Buffer.PushFront] at *
          simp [List.length_drop] at h ⊢
          omega
        · simp only [if_neg h1, h2, if_neg h3, Bool.false_eq_true, if_false] at hres
          match hrec : writeToAux w (i + 1) cs (s - 1) (b - (c.length : Int)) with
          | none => rw [hrec] at hres; exact absurd hres (by simp)
          | some (n, e, l2) =>
            rw [hrec] at hres
            simp only [Option.some.injEq] at hres
            subst hres
            exact ih (i + 1) (s - 1) (b - c.length)
              (by rw [h, sumLens_cons]; push_cast; omega) (n, e, l2) hrec

theorem readFromAux_WF (rd : GReader) (fuel i n : Nat) (l : Buffer)
    (h : l.WFBytes) (res : Nat × Option GErr × Buffer)
    (hres : readFromAux rd fuel i n l = some res) : res.2.2.WFBytes := by
  induction fuel generalizing i n l res with
  | zero => simp [readFromAux] at hres
  | succ fuel ih =>
    simp only [readFromAux] at hres
    match hrd : (rd i).2 with
    | some GErr.eof =>
      rw [hrd] at hres
      simp only [Option.some.injEq] at hres
      subst hres
      exact h
    | some GErr.shortWrite | some GErr.negativeSize | some (GErr.generic _) =>
      rw [hrd] at hres
      simp only [Option.some.injEq] at hres
      subst hres
      exact h
    | none =>
      rw [hrd] at hres
      exact ih (i + 1) (n + (rd i).1.length) (l.PushBack (rd i).1)
        (WFBytes_PushBack _ h) res hres

/-! ## Lemmas about the peek loops -/

theorem peekAux_take (maxB cum : Nat) (cs : List (List Nat)) :
    (concatChunks (peekAux maxB cum cs)).take (maxB - cum) =
      (concatChunks cs).take (maxB - cum) := by
  induction cs generalizing cum with
  | nil => simp [peekAux]
  | cons c cs ih =>
    unfold peekAux
    by_cases h1 : maxB ≤ cum + c.length
    · simp only [if_pos h1, concatChunks_cons, concatChunks_nil, List.append_nil]
      rw [List.take_append_of_le_length (show maxB - cum ≤ c.length by omega)]
    · simp only [if_neg h1, concatChunks_cons]
      rw [List.take_append_eq_append_take, List.take_append_eq_append_take]
      simp only [Nat.sub_sub]
      rw [ih (cum + c.length)]

theorem peekWithAux_take (maxB cum : Nat) (bs cs : List (List Nat)) :
    (concatChunks (peekWithAux maxB cum bs cs)).take (maxB - cum) =
      (concatChunks bs ++ concatChunks cs).take (maxB - cum) := by
  induction bs generalizing cum with
  | nil => simpa using peekAux_take maxB cum cs
  | cons bq bs ih =>
    unfold peekWithAux
    by_cases h0 : bq.length = 0
    · have : bq = [] := List.length_eq_zero.mp h0
      subst this
      simpa using ih cum
    · by_cases h1 : maxB ≤ cum + bq.length
      · simp only [if_neg h0, if_pos h1, concatChunks_cons, concatChunks_nil,
          List.append_nil, List.append_assoc]
        rw [List.take_append_of_le_length (show maxB - cum ≤ bq.length by omega)]
      · simp only [if_neg h0, if_neg h1, concatChunks_cons, List.append_assoc]
        rw [List.take_append_eq_append_take, List.take_append_eq_append_take]
        simp only [Nat.sub_sub]
        rw [ih (cum + bq.length)]

end linkedlist

namespace elastic

/-! ## Lemmas about the elastic buffer -/

theorem Concat_of_isEmpty {l : linkedlist.Buffer} (h : l.IsEmpty = true) :
    l.Concat = [] := by
  unfold linkedlist.Buffer.IsEmpty at h
  unfold linkedlist.Buffer.Concat
  rw [List.isEmpty_iff.mp h]
  rfl

theorem ensureRing_listBuffer (mb : Buffer) :
    (mb.ensureRing).listBuffer = mb.listBuffer := by
  unfold Buffer.ensureRing
  split <;> rfl

theorem ensureRing_maxStaticBytes (mb : Buffer) :
    (mb.ensureRing).maxStaticBytes = mb.maxStaticBytes := by
  unfold Buffer.ensureRing
  split <;> rfl

theorem ensureRing_contents (mb : Buffer) :
    (mb.ensureRing).Contents = mb.Contents := by
  unfold Buffer.ensureRing Buffer.Contents
  by_cases h : mb.ringBuffer.isNone && mb.listBuffer.IsEmpty
  · have hnone : mb.ringBuffer = none := by
      rcases hmb : mb.ringBuffer with _ | rb
      · rfl
      · rw [hmb] at h; simp at h
    rw [hnone] at h
    simp only [Option.isNone_none, Bool.true_and] at h
    simp [h, hnone, rbPoolGet]
  · simp [h]

theorem write_fst (mb : Buffer) (p : List Nat) : (mb.Write p).1 = p.length := by
  simp only [Buffer.Write]
  rcases hr : (mb.ensureRing).ringBuffer with _ | rb
  · rfl
  · dsimp only
    split
    · rfl
    · split
      · rfl
      · simp [RingBuf.Write]

theorem write_err (mb : Buffer) (p : List Nat) : (mb.Write p).2.1 = none := by
  simp only [Buffer.Write]
  rcases hr : (mb.ensureRing).ringBuffer with _ | rb
  · rfl
  · dsimp only
    split
    · rfl
    · split <;> rfl

theorem write_contents (mb : Buffer) (p : List Nat) :
    (mb.Write p).2.2.Contents = mb.Contents ++ p := by
  rw [← ensureRing_contents mb]
  simp only [Buffer.Write]
  rcases hr : (mb.ensureRing).ringBuffer with _ | rb
  · simp only [Buffer.Contents, hr, linkedlist.Concat_PushBytesBack]
    simp
  · dsimp only
    split
    · simp only [Buffer.Contents, hr, linkedlist.Concat_PushBytesBack]
      simp
    · rename_i hcond
      have hemp : (mb.ensureRing).listBuffer.IsEmpty = true := by
        rcases hq : (mb.ensureRing).listBuffer.IsEmpty with _ | _
        · exact absurd (Or.inl hq) hcond
        · rfl
      have hconcat : (mb.ensureRing).listBuffer.Concat = [] := Concat_of_isEmpty hemp
      split
      · simp only [Buffer.Contents, hr, linkedlist.Concat_PushBytesBack, hconcat,
          RingBuf.Write]
        simp [List.append_assoc]
      · simp only [Buffer.Contents, hr, hconcat, RingBuf.Write]
        simp

end elastic

namespace elastic

theorem pushAllBack_Concat (bs : List (List Nat)) (lb : linkedlist.Buffer) :
    (pushAllBack bs lb).Concat = lb.Concat ++ concatChunks bs := by
  induction bs generalizing lb with
  | nil => simp [pushAllBack]
  | cons bq bs ih =>
    simp only [pushAllBack, List.foldl_cons] at *
    rw [ih (lb.PushBytesBack bq), linkedlist.Concat_PushBytesBack]
    simp

theorem pushAllBack_all_empty (bs : List (List Nat)) (lb : linkedlist.Buffer)
    (h : ∀ bq ∈ bs, bq = []) : pushAllBack bs lb = lb := by
  induction bs generalizing lb with
  | nil => rfl
  | cons bq bs ih =>
    have hbq : bq = [] := h bq (by simp)
    simp only [pushAllBack, List.foldl_cons]
    have : lb.PushBytesBack bq = lb := by
      unfold linkedlist.Buffer.PushBytesBack
      simp [hbq]
    rw [this]
    exact ih lb (fun c hc => h c (by simp [hc]))

theorem writevAux_fst (bs : List (List Nat)) (wr cum : Nat) (rb : RingBuf)
    (lb : linkedlist.Buffer) : (writevAux bs wr cum rb lb).1 = cum + sumLens bs := by
  induction bs generalizing wr cum rb with
  | nil => simp [writevAux]
  | cons bq bs ih =>
    unfold writevAux
    by_cases h1 : wr < bq.length
    · simp only [if_pos h1, sumLens_cons]
      omega
    · simp only [if_neg h1, sumLens_cons, ih (wr - bq.length) (cum + bq.length)]
      omega

theorem writevAux_stream (bs : List (List Nat)) (wr cum : Nat) (rb : RingBuf)
    (lb : linkedlist.Buffer) (hlb : lb.Concat = []) :
    (writevAux bs wr cum rb lb).2.1.data ++ (writevAux bs wr cum rb lb).2.2.Concat =
      rb.data ++ concatChunks bs := by
  induction bs generalizing wr cum rb with
  | nil => simp [writevAux, hlb]
  | cons bq bs ih =>
    unfold writevAux
    by_cases h1 : wr < bq.length
    · simp only [if_pos h1, RingBuf.Write]
      rw [pushAllBack_Concat, linkedlist.Concat_PushBytesBack, hlb]
      simp only [List.nil_append, concatChunks_cons, List.append_assoc]
      rw [← List.append_assoc (List.take wr bq), List.take_append_drop]
    · simp only [if_neg h1, concatChunks_cons]
      rw [ih (wr - bq.length) (cum + bq.length) (rb.Write bq).2]
      simp [RingBuf.Write]

theorem writev_fst (mb : Buffer) (bs : List (List Nat)) :
    (mb.Writev bs).1 = sumLens bs := by
  simp only [Buffer.Writev]
  rcases hr : (mb.ensureRing).ringBuffer with _ | rb
  · rfl
  · dsimp only
    split
    · rfl
    · rw [writevAux_fst]
      simp

theorem writev_err (mb : Buffer) (bs : List (List Nat)) :
    (mb.Writev bs).2.1 = none := by
  simp only [Buffer.Writev]
  rcases hr : (mb.ensureRing).ringBuffer with _ | rb
  · rfl
  · dsimp only
    split <;> rfl

theorem writev_contents (mb : Buffer) (bs : List (List Nat)) :
    (mb.Writev bs).2.2.Contents = mb.Contents ++ concatChunks bs := by
  rw [← ensureRing_contents mb]
  simp only [Buffer.Writev]
  rcases hr : (mb.ensureRing).ringBuffer with _ | rb
  · simp only [Buffer.Contents, hr, pushAllBack_Concat]
    simp
  · dsimp only
    split
    · simp only [Buffer.Contents, hr, pushAllBack_Concat]
      simp
    · rename_i hcond
      have hemp : (mb.ensureRing).listBuffer.IsEmpty = true := by
        rcases hq : (mb.ensureRing).listBuffer.IsEmpty with _ | _
        · exact absurd (Or.inl hq) hcond
        · rfl
      have hconcat : (mb.ensureRing).listBuffer.Concat = [] := Concat_of_isEmpty hemp
      simp only [Buffer.Contents, hr]
      rw [writevAux_stream _ _ _ _ _ hconcat, hconcat]
      simp

theorem writeAll_foldl (bs : List (List Nat)) (acc : Nat × Buffer) :
    (bs.foldl (fun a bq => ((a.1 + (a.2.Write bq).1 : Nat), (a.2.Write bq).2.2)) acc).1 =
        acc.1 + sumLens bs ∧
      (bs.foldl (fun a bq => ((a.1 + (a.2.Write bq).1 : Nat), (a.2.Write bq).2.2)) acc).2.Contents =
        acc.2.Contents ++ concatChunks bs := by
  induction bs generalizing acc with
  | nil => simp
  | cons bq bs ih =>
    simp only [List.foldl_cons, sumLens_cons, concatChunks_cons]
    obtain ⟨ih1, ih2⟩ := ih ((acc.1 + (acc.2.Write bq).1, (acc.2.Write bq).2.2))
    constructor
    · rw [ih1]
      simp only [write_fst]
      omega
    · rw [ih2]
      simp only [write_contents]
      simp

end elastic

namespace elastic

theorem read_fst (mb : Buffer) (k : Nat) : (mb.Read k).1 = mb.Contents.take k := by
  rcases hr : mb.ringBuffer with _ | rb
  · simp only [Buffer.Read, hr, Buffer.Contents, List.nil_append]
    unfold linkedlist.Buffer.Read
    by_cases hk : k = 0
    · simp [hk]
    · rw [if_neg hk]
      exact linkedlist.readAux_fst k _ _ _ (by omega)
  · have hC : mb.Contents = rb.data ++ mb.listBuffer.Concat := by
      simp [Buffer.Contents, hr]
    by_cases hkle : k ≤ rb.data.length
    · have h1 : (rb.data.take k).length = k := by rw [List.length_take]; omega
      simp only [Buffer.Read, hr, RingBuf.Read, h1, if_pos, hC]
      rw [List.take_append_of_le_length hkle]
    · have h1 : ¬ ((rb.data.take k).length = k) := by rw [List.length_take]; omega
      have hdata : rb.data.take k = rb.data := List.take_of_length_le (by omega)
      simp only [Buffer.Read, hr, RingBuf.Read, hdata, hC,
        if_neg (show ¬ (rb.data.length = k) by omega)]
      unfold linkedlist.Buffer.Read
      rw [if_neg (show ¬ (k - rb.data.length = 0) by omega)]
      rw [linkedlist.readAux_fst _ _ _ _ (by omega)]
      rw [List.take_append_eq_append_take,
        List.take_of_length_le (show rb.data.length ≤ k by omega)]
      rfl

theorem discard_snd_eq_read_snd (mb : Buffer) (n : Nat) (hn : 0 < n) :
    (mb.Discard (n : Int)).2 = (mb.Read n).2 := by
  have htn : ((n : Int)).toNat = n := by omega
  have hpos : ¬ ((n : Int) ≤ 0) := by omega
  rcases hr : mb.ringBuffer with _ | rb
  · simp only [Buffer.Discard, Buffer.Read, hr]
    unfold linkedlist.Buffer.Discard linkedlist.Buffer.Read
    rw [if_neg hpos, if_neg (show ¬ n = 0 by omega), htn,
      linkedlist.readAux_snd_eq_discardAux_snd]
  · simp only [Buffer.Discard, Buffer.Read, hr, RingBuf.Discard, RingBuf.Buffered,
      RingBuf.Read, RingBuf.IsEmpty, if_neg hpos, htn]
    by_cases hlt : n < rb.data.length
    · have hne : (rb.data.drop n).isEmpty = false := by
        have h0 : rb.data.drop n ≠ [] := by
          intro hcontra
          have hlen := congrArg List.length hcontra
          simp [List.length_drop] at hlen
          omega
        simp [h0]
      rw [if_pos (show ((n : Int)) ≤ ((rb.data.length : Int)) by omega),
        if_neg (show ¬ (((n : Int)) = ((rb.data.length : Int))) by omega),
        if_pos (show (rb.data.take n).length = n by rw [List.length_take]; omega),
        hne]
      simp
    · by_cases heq : n = rb.data.length
      · have hemp : (rb.data.drop n).isEmpty = true := by
          rw [List.isEmpty_iff, List.drop_eq_nil_iff]
          omega
        rw [if_pos (show ((n : Int)) ≤ ((rb.data.length : Int)) by omega),
          if_pos (show (((n : Int)) = ((rb.data.length : Int))) by omega),
          if_pos (show (rb.data.take n).length = n by rw [List.length_take]; omega),
          hemp]
        simp
      · have hgt : rb.data.length < n := by omega
        have hemp : (rb.data.drop n).isEmpty = true := by
          rw [List.isEmpty_iff, List.drop_eq_nil_iff]
          omega
        rw [if_neg (show ¬ (((n : Int)) ≤ ((rb.data.length : Int))) by omega),
          if_neg (show ¬ ((rb.data.take n).length = n) by rw [List.length_take]; omega),
          hemp]
        simp only [List.length_take,
          show min n rb.data.length = rb.data.length by omega]
        unfold linkedlist.Buffer.Discard linkedlist.Buffer.Read
        rw [if_neg (show ¬ ((n : Int) - ((rb.data.length : Nat) : Int) ≤ 0) by omega),
          if_neg (show ¬ (n - rb.data.length = 0) by omega),
          show ((n : Int) - ((rb.data.length : Nat) : Int)).toNat = n - rb.data.length by
            omega,
          linkedlist.readAux_snd_eq_discardAux_snd]
        simp

end elastic

namespace elastic

theorem peek_take (mb : Buffer) (n : Nat) (hn : 0 < n) :
    (concatChunks (mb.Peek (n : Int))).take n = mb.Contents.take n := by
  have hpos : ¬ ((n : Int) ≤ 0) := by omega
  have htn : ((n : Int)).toNat = n := by omega
  rcases hr : mb.ringBuffer with _ | rb
  · simp only [Buffer.Peek, hr, Buffer.Contents, List.nil_append]
    unfold linkedlist.Buffer.PeekBytesList
    simp only [if_neg hpos, htn]
    have := linkedlist.peekAux_take n 0 mb.listBuffer.chunks
    simpa using this
  · simp only [Buffer.Peek, hr, Buffer.Contents, RingBuf.PeekPair, RingBuf.Buffered,
      if_neg hpos, htn]
    by_cases hle : (n : Int) ≤ (rb.data.length : Int)
    · rw [if_pos hle]
      simp only [concatChunks_cons, concatChunks_nil, List.append_nil]
      rw [List.take_take, List.take_append_of_le_length (show n ≤ rb.data.length by omega)]
      simp [Nat.min_self]
    · rw [if_neg hle]
      have hdata : rb.data.take n = rb.data := List.take_of_length_le (by omega)
      unfold linkedlist.Buffer.PeekBytesListWithBytes
      simp only [if_neg hpos, htn, hdata]
      have := linkedlist.peekWithAux_take n 0 [rb.data, []] mb.listBuffer.chunks
      simp only [Nat.sub_zero] at this
      rw [this]
      simp [linkedlist.Buffer.Concat]

end elastic

/-- C2: for every elastic buffer and every `n` with `0 < n ≤ Buffered()`,
the first `n` bytes assembled by `Peek(n)` are exactly the bytes `Read`
returns for a length-`n` destination, and the state after the subsequent
`Discard(n)` equals the state after that `Read`. -/
theorem C2_peek_discard_eq_read (mb : elastic.Buffer) (n : Nat) (h1 : 0 < n)
    (_h2 : (n : Int) ≤ mb.Buffered) :
    (concatChunks (mb.Peek (n : Int))).take n = (mb.Read n).1 ∧
      (mb.Discard (n : Int)).2 = (mb.Read n).2 :=
  ⟨by rw [elastic.peek_take mb n h1, ← elastic.read_fst],
   elastic.discard_snd_eq_read_snd mb n h1⟩

/-- Witness for C2 at a concrete buffer whose ring holds `[10, 20]` and
whose list holds `[30, 40]` and `[50]`, with `n = 4`. -/
theorem C2_peek_discard_eq_read_witness :
    (concatChunks ((elastic.Buffer.mk 3 (some (RingBuf.mk [10, 20] 4))
        (linkedlist.Buffer.mk [[30, 40], [50]] 2 3)).Peek ((4 : Nat) : Int))).take 4 =
      ((elastic.Buffer.mk 3 (some (RingBuf.mk [10, 20] 4))
        (linkedlist.Buffer.mk [[30, 40], [50]] 2 3)).Read 4).1 ∧
      ((elastic.Buffer.mk 3 (some (RingBuf.mk [10, 20] 4))
        (linkedlist.Buffer.mk [[30, 40], [50]] 2 3)).Discard ((4 : Nat) : Int)).2 =
      ((elastic.Buffer.mk 3 (some (RingBuf.mk [10, 20] 4))
        (linkedlist.Buffer.mk [[30, 40], [50]] 2 3)).Read 4).2 :=
  C2_peek_discard_eq_read _ 4 (by decide) (by decide)

/-- C6: for every elastic buffer whose list counter is consistent and every
`n` with `0 < n ≤ Buffered()`, `Discard(n)` reports exactly `n` discarded
bytes and `Buffered()` decreases by exactly `n`. -/
theorem C6_discard_decreases_buffered (mb : elastic.Buffer) (n : Nat)
    (hWF : mb.listBuffer.WFBytes) (h1 : 0 < n) (h2 : (n : Int) ≤ mb.Buffered) :
    (mb.Discard (n : Int)).1 = (n : Int) ∧
      (mb.Discard (n : Int)).2.Buffered = mb.Buffered - n := by
  have hpos : ¬ ((n : Int) ≤ 0) := by omega
  have htn : ((n : Int)).toNat = n := by omega
  unfold linkedlist.Buffer.WFBytes at hWF
  rcases hr : mb.ringBuffer with _ | rb
  · simp only [elastic.Buffer.Discard, hr, elastic.Buffer.Buffered,
      linkedlist.Buffer.Buffered] at *
    unfold linkedlist.Buffer.Discard
    simp only [if_neg hpos, htn]
    rw [linkedlist.discardAux_fst, linkedlist.discardAux_bytes,
      linkedlist.discardAux_fst]
    omega
  · simp only [elastic.Buffer.Discard, hr, elastic.Buffer.Buffered, RingBuf.Discard,
      RingBuf.Buffered, linkedlist.Buffer.Buffered, if_neg hpos, htn] at *
    by_cases hle : (n : Int) ≤ (rb.data.length : Int)
    · rw [if_pos hle]
      by_cases heq : (n : Int) = (rb.data.length : Int)
      · rw [if_pos heq]
        simp only [elastic.Buffer.Buffered, linkedlist.Buffer.Buffered]
        constructor
        · omega
        · omega
      · rw [if_neg heq]
        simp only [elastic.Buffer.Buffered, RingBuf.Buffered,
          linkedlist.Buffer.Buffered, List.length_drop]
        constructor
        · omega
        · omega
    · rw [if_neg hle]
      unfold linkedlist.Buffer.Discard
      rw [if_neg (show ¬ ((n : Int) - ((rb.data.length : Nat) : Int) ≤ 0) by omega),
        show ((n : Int) - ((rb.data.length : Nat) : Int)).toNat = n - rb.data.length by
          omega]
      simp only [elastic.Buffer.Buffered, linkedlist.Buffer.Buffered]
      rw [linkedlist.discardAux_fst, linkedlist.discardAux_bytes,
        linkedlist.discardAux_fst]
      constructor
      · omega
      · omega

/-- Witness for C6: a buffer with ring bytes `[1, 2, 3]` and one list chunk
`[4, 5]`, discarding 4 of its 5 buffered bytes. -/
theorem C6_discard_decreases_buffered_witness :
    ((elastic.Buffer.mk 5 (some (RingBuf.mk [1, 2, 3] 8))
        (linkedlist.Buffer.mk [[4, 5]] 1 2)).Discard ((4 : Nat) : Int)).1 = ((4 : Nat) : Int) ∧
      ((elastic.Buffer.mk 5 (some (RingBuf.mk [1, 2, 3] 8))
        (linkedlist.Buffer.mk [[4, 5]] 1 2)).Discard ((4 : Nat) : Int)).2.Buffered =
      (elastic.Buffer.mk 5 (some (RingBuf.mk [1, 2, 3] 8))
        (linkedlist.Buffer.mk [[4, 5]] 1 2)).Buffered - 4 :=
  C6_discard_decreases_buffered _ 4 (by decide) (by decide) (by decide)

/-- Counterexample to C4 as stated: starting from a fresh buffer with
watermark 4, `Writev [[1,1,1,1,1],[2,2,2]]` keeps all 8 bytes in the ring
(its writable budget is fixed at entry), while `Write [1,1,1,1,1]` followed
by `Write [2,2,2]` re-checks the watermark and spills the second slice to
the list: the resulting ring/list splits differ. -/
theorem C4_writev_not_elementwise_cex :
    ((elastic.Buffer.mk 4 (some (RingBuf.mk [] 1024)) (linkedlist.Buffer.mk [] 0 0)).Writev
        [[1, 1, 1, 1, 1], [2, 2, 2]]).2.2 ≠
      ((((elastic.Buffer.mk 4 (some (RingBuf.mk [] 1024)) (linkedlist.Buffer.mk [] 0 0)).Write
        [1, 1, 1, 1, 1]).2.2).Write [2, 2, 2]).2.2 := by
  decide

/-- C4 (amended): `Writev(bs)` agrees with element-wise `Write` on the
returned count (the total input byte count, with a nil error) and on the
resulting byte stream (ring content followed by list content); the split
of that stream between ring and list may differ, because `Writev` fixes
its writable budget once at entry. -/
theorem C4_writev_stream_equiv (mb : elastic.Buffer) (bs : List (List Nat)) :
    (mb.Writev bs).1 = (mb.WriteAll bs).1 ∧
      (mb.Writev bs).2.2.Contents = (mb.WriteAll bs).2.Contents ∧
      (mb.Writev bs).1 = sumLens bs ∧
      (mb.Writev bs).2.1 = none := by
  have h := elastic.writeAll_foldl bs (0, mb)
  refine ⟨?_, ?_, elastic.writev_fst mb bs, elastic.writev_err mb bs⟩
  · rw [elastic.writev_fst]
    unfold elastic.Buffer.WriteAll
    rw [h.1]
    simp
  · rw [elastic.writev_contents]
    unfold elastic.Buffer.WriteAll
    rw [h.2]

namespace elastic

theorem ensureRing_buffered (mb : Buffer) : (mb.ensureRing).Buffered = mb.Buffered := by
  unfold Buffer.ensureRing
  by_cases h : mb.ringBuffer.isNone && mb.listBuffer.IsEmpty
  · have hnone : mb.ringBuffer = none := by
      rcases hmb : mb.ringBuffer with _ | rb
      · rfl
      · rw [hmb] at h; simp at h
    rw [hnone] at h
    simp only [Option.isNone_none, Bool.true_and] at h
    simp [h, Buffer.Buffered, hnone, rbPoolGet, RingBuf.Buffered]
  · simp [h]

theorem write_nil_buffered (mb : Buffer) : (mb.Write []).2.2.Buffered = mb.Buffered := by
  rw [← ensureRing_buffered mb]
  simp only [Buffer.Write]
  rcases hr : (mb.ensureRing).ringBuffer with _ | rb
  · simp only [Buffer.Buffered, hr, linkedlist.Buffer.PushBytesBack]
    simp
  · dsimp only
    split
    · simp only [Buffer.Buffered, hr, linkedlist.Buffer.PushBytesBack]
      simp
    · split
      · simp only [Buffer.Buffered, hr, RingBuf.Write, RingBuf.Buffered,
          linkedlist.Buffer.PushBytesBack]
        simp
      · simp only [Buffer.Buffered, hr, RingBuf.Write, RingBuf.Buffered]
        simp

theorem writevAux_all_empty (bs : List (List Nat)) (wr cum : Nat) (rb : RingBuf)
    (lb : linkedlist.Buffer) (h : ∀ bq ∈ bs, bq = []) :
    (writevAux bs wr cum rb lb).2.1.data.length = rb.data.length ∧
      (writevAux bs wr cum rb lb).2.2 = lb := by
  induction bs generalizing wr cum rb with
  | nil => simp [writevAux]
  | cons bq bs ih =>
    have hbq : bq = [] := h bq (by simp)
    subst hbq
    unfold writevAux
    rw [if_neg (by simp)]
    obtain ⟨ih1, ih2⟩ := ih (wr - [].length) (cum + [].length) ((rb.Write []).2)
      (fun c hc => h c (by simp [hc]))
    refine ⟨?_, ih2⟩
    rw [ih1]
    simp [RingBuf.Write]

theorem writev_all_empty_buffered (mb : Buffer) (bs : List (List Nat))
    (h : ∀ bq ∈ bs, bq = []) : (mb.Writev bs).2.2.Buffered = mb.Buffered := by
  rw [← ensureRing_buffered mb]
  simp only [Buffer.Writev]
  rcases hr : (mb.ensureRing).ringBuffer with _ | rb
  · simp only [Buffer.Buffered, hr, pushAllBack_all_empty _ _ h]
  · dsimp only
    split
    · simp only [Buffer.Buffered, hr, pushAllBack_all_empty _ _ h]
    · have h12 := fun wr => writevAux_all_empty bs wr 0 rb (mb.ensureRing).listBuffer h
      simp only [Buffer.Buffered, hr, RingBuf.Buffered]
      rw [(h12 _).1, (h12 _).2]

end elastic

theorem sumLens_all_empty (bs : List (List Nat)) (h : ∀ bq ∈ bs, bq = []) :
    sumLens bs = 0 := by
  induction bs with
  | nil => rfl
  | cons bq bs ih =>
    have hbq : bq = [] := h bq (by simp)
    simp [hbq, ih (fun c hc => h c (by simp [hc]))]

theorem concatChunks_all_empty (bs : List (List Nat)) (h : ∀ bq ∈ bs, bq = []) :
    concatChunks bs = [] := by
  induction bs with
  | nil => rfl
  | cons bq bs ih =>
    have hbq : bq = [] := h bq (by simp)
    simp [hbq, ih (fun c hc => h c (by simp [hc]))]

/-- C8: for every elastic buffer state and inputs, `Write` and `Writev`
succeed: they return a nil error and a count equal to the total number of
input bytes. -/
theorem C8_write_writev_total_success (mb : elastic.Buffer) (p : List Nat)
    (bs : List (List Nat)) :
    (mb.Write p).1 = p.length ∧ (mb.Write p).2.1 = none ∧
      (mb.Writev bs).1 = sumLens bs ∧ (mb.Writev bs).2.1 = none :=
  ⟨elastic.write_fst mb p, elastic.write_err mb p, elastic.writev_fst mb bs,
    elastic.writev_err mb bs⟩

/-- C9: a zero-length `Write`, and a `Writev` whose slices are all empty,
return count 0 with a nil error and leave the buffer's byte stream and
`Buffered()` unchanged. -/
theorem C9_zero_write_noop (mb : elastic.Buffer) (bs : List (List Nat)) :
    (mb.Write []).1 = 0 ∧ (mb.Write []).2.1 = none ∧
      (mb.Write []).2.2.Contents = mb.Contents ∧
      (mb.Write []).2.2.Buffered = mb.Buffered ∧
      ((∀ bq ∈ bs, bq = []) →
        (mb.Writev bs).1 = 0 ∧ (mb.Writev bs).2.1 = none ∧
          (mb.Writev bs).2.2.Contents = mb.Contents ∧
          (mb.Writev bs).2.2.Buffered = mb.Buffered) := by
  refine ⟨elastic.write_fst mb [], elastic.write_err mb [],
    by rw [elastic.write_contents]; simp, elastic.write_nil_buffered mb, fun h => ?_⟩
  refine ⟨?_, elastic.writev_err mb bs, ?_, elastic.writev_all_empty_buffered mb bs h⟩
  · rw [elastic.writev_fst, sumLens_all_empty bs h]
  · rw [elastic.writev_contents, concatChunks_all_empty bs h]
    simp

/-- Witness for C9 at a concrete one-chunk buffer with `bs = [[], []]`. -/
theorem C9_zero_write_noop_witness :
    ((elastic.Buffer.mk 2 none (linkedlist.Buffer.mk [[9]] 1 1)).Writev [[], []]).1 = 0 ∧
      ((elastic.Buffer.mk 2 none (linkedlist.Buffer.mk [[9]] 1 1)).Writev [[], []]).2.1 =
        none ∧
      ((elastic.Buffer.mk 2 none (linkedlist.Buffer.mk [[9]] 1 1)).Writev [[], []]).2.2.Contents =
        (elastic.Buffer.mk 2 none (linkedlist.Buffer.mk [[9]] 1 1)).Contents ∧
      ((elastic.Buffer.mk 2 none (linkedlist.Buffer.mk [[9]] 1 1)).Writev [[], []]).2.2.Buffered =
        (elastic.Buffer.mk 2 none (linkedlist.Buffer.mk [[9]] 1 1)).Buffered :=
  (C9_zero_write_noop (elastic.Buffer.mk 2 none (linkedlist.Buffer.mk [[9]] 1 1))
    [[], []]).2.2.2.2 (by decide)

/-- C10: `elastic.New` rejects every non-positive watermark with
`ErrNegativeSize` and otherwise returns a buffer with that watermark, a
freshly acquired ring buffer and an empty list, with no error. -/
theorem C10_new_validation (m : Int) :
    (m ≤ 0 → elastic.New m = Except.error GErr.negativeSize) ∧
      (0 < m → elastic.New m =
        Except.ok (elastic.Buffer.mk m (some rbPoolGet) (linkedlist.Buffer.mk [] 0 0))) := by
  unfold elastic.New
  constructor
  · intro h
    rw [if_pos h]
  · intro h
    rw [if_neg (by omega)]

/-- Witness for C10 at `maxStaticBytes = -3` and `maxStaticBytes = 7`. -/
theorem C10_new_validation_witness :
    elastic.New (-3) = Except.error GErr.negativeSize ∧
      elastic.New 7 =
        Except.ok (elastic.Buffer.mk 7 (some rbPoolGet) (linkedlist.Buffer.mk [] 0 0)) :=
  ⟨(C10_new_validation (-3)).1 (by decide), (C10_new_validation 7).2 (by decide)⟩

/-- C1: `Write(p)` on an elastic buffer (after the pool re-acquisition
prelude) appends `p` to the list when the list is non-empty or the ring
buffers at least the watermark; otherwise, when the ring's region is at
least the watermark and `p` exceeds the ring's available space, it fills
the ring with the first `Available` bytes of `p` and pushes the remainder
onto the list; otherwise it writes all of `p` into the ring. -/
theorem C1_write_branching (mb : elastic.Buffer) (p : List Nat) (rb : RingBuf) :
    ((mb.ensureRing).listBuffer.IsEmpty = false →
      (mb.Write p).2.2.listBuffer.Concat = (mb.ensureRing).listBuffer.Concat ++ p ∧
        (mb.Write p).2.2.ringBuffer = (mb.ensureRing).ringBuffer) ∧
    ((mb.ensureRing).ringBuffer = some rb →
      (mb.ensureRing).listBuffer.IsEmpty = true →
      rb.Buffered ≥ (mb.ensureRing).maxStaticBytes →
      (mb.Write p).2.2.listBuffer.Concat = (mb.ensureRing).listBuffer.Concat ++ p ∧
        (mb.Write p).2.2.ringBuffer = some rb) ∧
    ((mb.ensureRing).ringBuffer = some rb →
      (mb.ensureRing).listBuffer.IsEmpty = true →
      rb.Buffered < (mb.ensureRing).maxStaticBytes →
      rb.Len ≥ (mb.ensureRing).maxStaticBytes →
      (p.length : Int) > rb.Available →
      (∃ c : Nat, (mb.Write p).2.2.ringBuffer =
          some (RingBuf.mk (rb.data ++ p.take (rb.cap - rb.data.length)) c)) ∧
        (mb.Write p).2.2.listBuffer.Concat =
          (mb.ensureRing).listBuffer.Concat ++ p.drop (rb.cap - rb.data.length)) ∧
    ((mb.ensureRing).ringBuffer = some rb →
      (mb.ensureRing).listBuffer.IsEmpty = true →
      rb.Buffered < (mb.ensureRing).maxStaticBytes →
      ¬ (rb.Len ≥ (mb.ensureRing).maxStaticBytes ∧ (p.length : Int) > rb.Available) →
      (∃ c : Nat, (mb.Write p).2.2.ringBuffer = some (RingBuf.mk (rb.data ++ p) c)) ∧
        (mb.Write p).2.2.listBuffer = (mb.ensureRing).listBuffer) := by
  refine ⟨?_, ?_, ?_, ?_⟩
  · intro hL
    simp only [elastic.Buffer.Write]
    rcases hr : (mb.ensureRing).ringBuffer with _ | rb0
    · exact ⟨linkedlist.Concat_PushBytesBack _ p, rfl⟩
    · dsimp only
      rw [if_pos (Or.inl hL)]
      exact ⟨linkedlist.Concat_PushBytesBack _ p, rfl⟩
  · intro hr hEmp hBuf
    simp only [elastic.Buffer.Write, hr]
    rw [if_pos (Or.inr hBuf)]
    exact ⟨linkedlist.Concat_PushBytesBack _ p, rfl⟩
  · intro hr hEmp hBuf hLen hAvail
    simp only [elastic.Buffer.Write, hr]
    rw [if_neg (by rw [hEmp]; simp; omega), if_pos ⟨hLen, hAvail⟩]
    exact ⟨⟨_, rfl⟩, linkedlist.Concat_PushBytesBack _ _⟩
  · intro hr hEmp hBuf hNot
    simp only [elastic.Buffer.Write, hr]
    rw [if_neg (by rw [hEmp]; simp; omega), if_neg hNot]
    exact ⟨⟨_, rfl⟩, rfl⟩

/-- Witness for C1, exercising all four branches: list-append on a
non-empty list, list-append at the watermark, partial ring fill with
spill, and a plain ring write. -/
theorem C1_write_branching_witness :
    (((elastic.Buffer.mk 4 none (linkedlist.Buffer.mk [[9]] 1 1)).Write [7]).2.2.listBuffer.Concat =
        ((elastic.Buffer.mk 4 none (linkedlist.Buffer.mk [[9]] 1 1)).ensureRing).listBuffer.Concat ++ [7] ∧
      ((elastic.Buffer.mk 4 none (linkedlist.Buffer.mk [[9]] 1 1)).Write [7]).2.2.ringBuffer = ((elastic.Buffer.mk 4 none (linkedlist.Buffer.mk [[9]] 1 1)).ensureRing).ringBuffer) ∧
    (((elastic.Buffer.mk 2 (some (RingBuf.mk [1, 1] 4)) (linkedlist.Buffer.mk [] 0 0)).Write [7]).2.2.listBuffer.Concat =
        ((elastic.Buffer.mk 2 (some (RingBuf.mk [1, 1] 4)) (linkedlist.Buffer.mk [] 0 0)).ensureRing).listBuffer.Concat ++ [7] ∧
      ((elastic.Buffer.mk 2 (some (RingBuf.mk [1, 1] 4)) (linkedlist.Buffer.mk [] 0 0)).Write [7]).2.2.ringBuffer = some (RingBuf.mk [1, 1] 4)) ∧
    ((∃ c : Nat, ((elastic.Buffer.mk 4 (some (RingBuf.mk [1, 1] 4)) (linkedlist.Buffer.mk [] 0 0)).Write [5, 5, 5]).2.2.ringBuffer =
        some (RingBuf.mk ((RingBuf.mk [1, 1] 4).data ++ List.take ((RingBuf.mk [1, 1] 4).cap - (RingBuf.mk [1, 1] 4).data.length) [5, 5, 5]) c)) ∧
      ((elastic.Buffer.mk 4 (some (RingBuf.mk [1, 1] 4)) (linkedlist.Buffer.mk [] 0 0)).Write [5, 5, 5]).2.2.listBuffer.Concat =
        ((elastic.Buffer.mk 4 (some (RingBuf.mk [1, 1] 4)) (linkedlist.Buffer.mk [] 0 0)).ensureRing).listBuffer.Concat ++
          List.drop ((RingBuf.mk [1, 1] 4).cap - (RingBuf.mk [1, 1] 4).data.length) [5, 5, 5]) ∧
    ((∃ c : Nat, ((elastic.Buffer.mk 4 (some (RingBuf.mk [1] 4)) (linkedlist.Buffer.mk [] 0 0)).Write [2]).2.2.ringBuffer =
        some (RingBuf.mk ((RingBuf.mk [1] 4).data ++ [2]) c)) ∧
      ((elastic.Buffer.mk 4 (some (RingBuf.mk [1] 4)) (linkedlist.Buffer.mk [] 0 0)).Write [2]).2.2.listBuffer = ((elastic.Buffer.mk 4 (some (RingBuf.mk [1] 4)) (linkedlist.Buffer.mk [] 0 0)).ensureRing).listBuffer) :=
  ⟨(C1_write_branching (elastic.Buffer.mk 4 none (linkedlist.Buffer.mk [[9]] 1 1)) [7] (RingBuf.mk [] 0)).1 (by decide),
   (C1_write_branching (elastic.Buffer.mk 2 (some (RingBuf.mk [1, 1] 4)) (linkedlist.Buffer.mk [] 0 0)) [7] (RingBuf.mk [1, 1] 4)).2.1 (by decide) (by decide) (by decide),
   (C1_write_branching (elastic.Buffer.mk 4 (some (RingBuf.mk [1, 1] 4)) (linkedlist.Buffer.mk [] 0 0)) [5, 5, 5] (RingBuf.mk [1, 1] 4)).2.2.1 (by decide) (by decide) (by decide)
     (by decide) (by decide),
   (C1_write_branching (elastic.Buffer.mk 4 (some (RingBuf.mk [1] 4)) (linkedlist.Buffer.mk [] 0 0)) [2] (RingBuf.mk [1] 4)).2.2.2 (by decide) (by decide) (by decide)
     (by decide)⟩

/-- C3: the linked chunk buffer invariant `bytes == sum(len(chunk))` is
preserved by every operation — `Pop`, `PushFront`, `PushBack`,
`PushBytesFront`, `PushBytesBack`, `Read`, `Discard`, `ReadFrom`,
`WriteTo` and `Reset` — including the paths of `Read`, `Discard` and
`WriteTo` that re-push a partially consumed chunk at the head with its
slice advanced. -/
theorem C3_linkedlist_bytes_invariant (l : linkedlist.Buffer) (c p : List Nat)
    (k : Nat) (n : Int) (w : GWriter) (rd : GReader) (fuel : Nat)
    (h : l.WFBytes) :
    (l.Pop).2.WFBytes ∧
      (l.PushFront c).WFBytes ∧
      (l.PushBack c).WFBytes ∧
      (l.PushBytesFront p).WFBytes ∧
      (l.PushBytesBack p).WFBytes ∧
      (l.Read k).2.WFBytes ∧
      (l.Discard n).2.WFBytes ∧
      (∀ res, l.ReadFrom rd fuel = some res → res.2.2.WFBytes) ∧
      (∀ res, l.WriteTo w = some res → res.2.2.WFBytes) ∧
      (l.Reset).WFBytes := by
  refine ⟨linkedlist.WFBytes_Pop h, linkedlist.WFBytes_PushFront c h,
    linkedlist.WFBytes_PushBack c h, linkedlist.WFBytes_PushBytesFront p h,
    linkedlist.WFBytes_PushBytesBack p h, ?_, ?_, ?_, ?_, ?_⟩
  · unfold linkedlist.Buffer.Read
    by_cases hk : k = 0
    · simpa [hk]
    · rw [if_neg hk]
      exact linkedlist.readAux_WF k l.chunks l.size l.bytes (by omega) h
  · unfold linkedlist.Buffer.Discard
    by_cases hn : n ≤ 0
    · simpa [hn]
    · rw [if_neg hn]
      exact linkedlist.discardAux_WF n.toNat l.chunks l.size l.bytes (by omega) h
  · intro res hres
    exact linkedlist.readFromAux_WF rd fuel 0 0 l h res hres
  · intro res hres
    exact linkedlist.writeToAux_WF w 0 l.chunks l.size l.bytes h res hres
  · unfold linkedlist.Buffer.Reset linkedlist.Buffer.WFBytes
    simp

/-- Witness for C3: the `Read` and `Discard` conjuncts at a concrete
two-chunk buffer, both ending on a partially consumed head chunk. -/
theorem C3_linkedlist_bytes_invariant_witness :
    ((linkedlist.Buffer.mk [[1, 2], [3]] 2 3).Read 1).2.WFBytes ∧
      ((linkedlist.Buffer.mk [[1, 2], [3]] 2 3).Discard 2).2.WFBytes :=
  ⟨(C3_linkedlist_bytes_invariant (linkedlist.Buffer.mk [[1, 2], [3]] 2 3) [4] [5] 1 2
      (fun _ cq => (cq.length, none)) (fun _ => ([], some GErr.eof)) 3
      (by decide)).2.2.2.2.2.1,
   (C3_linkedlist_bytes_invariant (linkedlist.Buffer.mk [[1, 2], [3]] 2 3) [4] [5] 1 2
      (fun _ cq => (cq.length, none)) (fun _ => ([], some GErr.eof)) 3
      (by decide)).2.2.2.2.2.2.1⟩

theorem writeToAux_shift (w : GWriter) (i : Nat) (cs : List (List Nat)) (s b : Int) :
    linkedlist.writeToAux (fun j d => w (j + 1) d) i cs s b =
      linkedlist.writeToAux w (i + 1) cs s b := by
  induction cs generalizing i s b with
  | nil => rfl
  | cons c cs ih =>
    unfold linkedlist.writeToAux
    simp only []
    rw [ih (i + 1)]

/-- C7: the linked chunk buffer's `WriteTo` hands the writer one chunk per
call; if a call accepts only `m < len(chunk)` bytes (with no error), the
unwritten remainder is re-pushed at the head and `io.ErrShortWrite` is
returned; a fully accepted chunk is released and `WriteTo` continues with
the rest of the list on the writer's next call. -/
theorem C7_writeto_short_write (l : linkedlist.Buffer) (w : GWriter) (c : List Nat)
    (cs : List (List Nat)) (m : Nat) (hl : l.chunks = c :: cs) :
    (w 0 c = (m, none) → m < c.length →
      l.WriteTo w = some (m, some GErr.shortWrite,
        linkedlist.Buffer.PushFront (c.drop m)
          (linkedlist.Buffer.mk cs (l.size - 1) (l.bytes - c.length)))) ∧
    (w 0 c = (c.length, none) →
      l.WriteTo w =
        (match (linkedlist.Buffer.mk cs (l.size - 1)
            (l.bytes - c.length)).WriteTo (fun j d => w (j + 1) d) with
          | none => none
          | some (nrest, e, l2) => some (c.length + nrest, e, l2))) := by
  constructor
  · intro hw hm
    simp only [linkedlist.Buffer.WriteTo, hl, linkedlist.writeToAux, hw]
    rw [if_neg (show ¬ (c.length < m) by omega)]
    simp only [Option.isSome_none, Bool.false_eq_true, if_false]
    rw [if_pos hm]
  · intro hw
    simp only [linkedlist.Buffer.WriteTo, hl, linkedlist.writeToAux, hw]
    rw [if_neg (show ¬ (c.length < c.length) by omega)]
    simp only [Option.isSome_none, Bool.false_eq_true, if_false]
    rw [if_neg (show ¬ (c.length < c.length) by omega)]
    rw [writeToAux_shift]

/-- Witness for C7: a writer that accepts one byte of the first chunk and
nothing after; the remainder `[8]` is re-pushed and `ErrShortWrite`
returned; and a full first write continues with the tail. -/
theorem C7_writeto_short_write_witness :
    ((linkedlist.Buffer.mk [[7, 8], [9]] 2 3).WriteTo (fun _ _ => (1, none)) =
      some (1, some GErr.shortWrite,
        linkedlist.Buffer.PushFront ([7, 8].drop 1)
          (linkedlist.Buffer.mk [[9]] ((2 : Int) - 1) ((3 : Int) - [7, 8].length)))) ∧
    ((linkedlist.Buffer.mk [[7, 8], [9]] 2 3).WriteTo (fun _ d => (d.length, none)) =
      (match (linkedlist.Buffer.mk [[9]] ((2 : Int) - 1)
          ((3 : Int) - [7, 8].length)).WriteTo
            (fun j d => (fun _ d2 => (d2.length, none) : GWriter) (j + 1) d) with
        | none => none
        | some (nrest, e, l2) => some ([7, 8].length + nrest, e, l2))) :=
  ⟨(C7_writeto_short_write (linkedlist.Buffer.mk [[7, 8], [9]] 2 3)
      (fun _ _ => (1, none)) [7, 8] [[9]] 1 rfl).1 rfl (by decide),
   (C7_writeto_short_write (linkedlist.Buffer.mk [[7, 8], [9]] 2 3)
      (fun _ d => (d.length, none)) [7, 8] [[9]] 1 rfl).2 rfl⟩

/-- The everything-accepting writer: each call accepts the whole slice with
no error. -/
def acceptAll : GWriter := fun _ c => (c.length, none)

theorem writeToAux_acceptAll (i : Nat) (cs : List (List Nat)) (s b : Int) :
    linkedlist.writeToAux acceptAll i cs s b =
      some (sumLens cs, none,
        linkedlist.Buffer.mk [] (s - cs.length) (b - (sumLens cs : Int))) := by
  induction cs generalizing i s b with
  | nil => simp [linkedlist.writeToAux]
  | cons c cs ih =>
    unfold linkedlist.writeToAux
    simp only [acceptAll]
    rw [if_neg (show ¬ (c.length < c.length) by omega)]
    simp only [Option.isSome_none, Bool.false_eq_true, if_false]
    rw [if_neg (show ¬ (c.length < c.length) by omega)]
    rw [ih (i + 1)]
    simp only [Option.some.injEq, Prod.mk.injEq, linkedlist.Buffer.mk.injEq,
      sumLens_cons, List.length_cons]
    refine ⟨by simp, trivial, trivial, by push_cast; omega, by push_cast; omega⟩

theorem shift_acceptAll (i : Nat) : (fun j c => acceptAll (i + j) c) = acceptAll := rfl

/-- C5: `Read` and `WriteTo` drain the ring buffer first and only then the
list buffer; the ring is released to its pool (the field becomes `nil`)
exactly when the operation empties it, is never re-acquired by `Read` or
`WriteTo`, and is re-acquired on the next `Write`. -/
theorem C5_read_writeto_drain_order (mb : elastic.Buffer) (k : Nat) (rb : RingBuf)
    (p : List Nat) (w : GWriter) :
    (mb.Read k).1 = mb.Contents.take k ∧
      (mb.ringBuffer = some rb →
        (((mb.Read k).2.ringBuffer = none) ↔ rb.data.length ≤ k)) ∧
      (mb.ringBuffer = none → (mb.Read k).2.ringBuffer = none) ∧
      (mb.WriteTo acceptAll = some (mb.Contents.length, none,
        elastic.Buffer.mk mb.maxStaticBytes none
          (linkedlist.Buffer.mk [] (mb.listBuffer.size - mb.listBuffer.chunks.length)
            (mb.listBuffer.bytes - (sumLens mb.listBuffer.chunks : Int))))) ∧
      (mb.ringBuffer = none → ∀ res, mb.WriteTo w = some res →
        res.2.2.ringBuffer = none) ∧
      (mb.ringBuffer = some rb → ∀ res, mb.WriteTo w = some res →
        (res.2.2.ringBuffer = none ↔ rb.data.length ≤ (w 0 rb.data).1)) ∧
      (mb.ringBuffer = none → mb.listBuffer.chunks = [] →
        ((mb.Write p).2.2.ringBuffer).isSome = true) := by
  refine ⟨elastic.read_fst mb k, ?_, ?_, ?_, ?_, ?_, ?_⟩
  · intro hr
    have hring2 : ((mb.Read k).2).ringBuffer =
        (if (rb.data.drop k).isEmpty = true then none
         else some (RingBuf.mk (rb.data.drop k) rb.cap)) := by
      simp only [elastic.Buffer.Read, hr, RingBuf.Read, RingBuf.IsEmpty]
      by_cases hlen : (rb.data.take k).length = k
      · rw [if_pos hlen]
      · rw [if_neg hlen]
    rw [hring2]
    by_cases hd : (rb.data.drop k).isEmpty = true
    · have : rb.data.length ≤ k := by
        have := List.isEmpty_iff.mp hd
        have hlen := congrArg List.length this
        simp [List.length_drop] at hlen
        omega
      simp [hd, this]
    · have : ¬ (rb.data.length ≤ k) := by
        intro hcontra
        exact hd (by rw [List.isEmpty_iff, List.drop_eq_nil_iff]; omega)
      simp [hd, this]
  · intro h0
    simp [elastic.Buffer.Read, h0]
  · rcases hr : mb.ringBuffer with _ | rb0
    · simp only [elastic.Buffer.WriteTo, hr, linkedlist.Buffer.WriteTo,
        writeToAux_acceptAll]
      simp [elastic.Buffer.Contents, hr, linkedlist.Buffer.Concat,
        length_concatChunks]
    · simp only [elastic.Buffer.WriteTo, hr, RingBuf.WriteTo]
      by_cases hda : rb0.data.isEmpty = true
      · rw [if_pos hda]
        simp only [Option.isSome_none, Bool.false_eq_true, if_false, RingBuf.IsEmpty,
          hda, if_true]
        rw [shift_acceptAll 0]
        simp only [linkedlist.Buffer.WriteTo, writeToAux_acceptAll]
        have hdat : rb0.data = [] := List.isEmpty_iff.mp hda
        simp [elastic.Buffer.Contents, hr, hdat, linkedlist.Buffer.Concat,
          length_concatChunks]
      · rw [if_neg hda]
        rw [if_neg (show ¬ (rb0.data.length < (acceptAll 0 rb0.data).1) by
            simp [acceptAll]),
          if_neg (show ¬ (((acceptAll 0 rb0.data).2).isSome = true) by
            simp [acceptAll]),
          if_neg (show ¬ ((acceptAll 0 rb0.data).1 < rb0.data.length) by
            simp [acceptAll])]
        simp only [Option.isSome_none, Bool.false_eq_true, if_false, RingBuf.IsEmpty,
          List.isEmpty_nil, if_true]
        rw [shift_acceptAll (0 + 1)]
        simp only [linkedlist.Buffer.WriteTo, writeToAux_acceptAll]
        simp [elastic.Buffer.Contents, hr, acceptAll, linkedlist.Buffer.Concat,
          length_concatChunks]
  · intro h0 res hres
    simp only [elastic.Buffer.WriteTo, h0] at hres
    match hll : mb.listBuffer.WriteTo w with
    | none => rw [hll] at hres; exact absurd hres (by simp)
    | some (a, e, l2) =>
      rw [hll] at hres
      simp only [Option.some.injEq] at hres
      subst hres
      rfl
  · intro hr res hres
    simp only [elastic.Buffer.WriteTo, hr, RingBuf.WriteTo] at hres
    by_cases hda : rb.data.isEmpty = true
    · rw [if_pos hda] at hres
      simp only [Option.isSome_none, Bool.false_eq_true, if_false, RingBuf.IsEmpty,
        hda, if_true] at hres
      have h0le : rb.data.length ≤ (w 0 rb.data).1 := by
        rw [List.isEmpty_iff.mp hda]
        simp
      match hll : mb.listBuffer.WriteTo (fun j c => w (0 + j) c) with
      | none => rw [hll] at hres; exact absurd hres (by simp)
      | some (a, e, l2) =>
        rw [hll] at hres
        simp only [Option.some.injEq] at hres
        subst hres
        exact iff_of_true (by trivial) h0le
    · rw [if_neg hda] at hres
      by_cases hover : rb.data.length < (w 0 rb.data).1
      · rw [if_pos hover] at hres
        exact absurd hres (by simp)
      · rw [if_neg hover] at hres
        by_cases herr : ((w 0 rb.data).2).isSome = true
        · rw [if_pos herr] at hres
          simp only [herr, if_true, Option.some.injEq] at hres
          subst hres
          simp only [RingBuf.IsEmpty]
          by_cases hd : (rb.data.drop (w 0 rb.data).1).isEmpty = true
          · have hdle : rb.data.length ≤ (w 0 rb.data).1 := by
              have hlen := congrArg List.length (List.isEmpty_iff.mp hd)
              simp [List.length_drop] at hlen
              omega
            simp only [hd, if_true]
            exact iff_of_true (by trivial) hdle
          · have hngt : ¬ (rb.data.length ≤ (w 0 rb.data).1) := by
              intro hcontra
              exact hd (by rw [List.isEmpty_iff, List.drop_eq_nil_iff]; omega)
            simp only [hd, Bool.false_eq_true, if_false]
            exact iff_of_false (by simp) hngt
        · rw [if_neg herr] at hres
          by_cases hshort : (w 0 rb.data).1 < rb.data.length
          · rw [if_pos hshort] at hres
            simp only [Option.isSome_some, if_true, Option.some.injEq] at hres
            subst hres
            have hne : (rb.data.drop (w 0 rb.data).1).isEmpty = false := by
              have hlen : 0 < (rb.data.drop (w 0 rb.data).1).length := by
                rw [List.length_drop]
                omega
              rcases hq : (rb.data.drop (w 0 rb.data).1).isEmpty with _ | _
              · rfl
              · rw [List.isEmpty_iff.mp hq] at hlen
                simp at hlen
            simp only [RingBuf.IsEmpty, hne, Bool.false_eq_true, if_false]
            exact iff_of_false (by simp) (by omega)
          · rw [if_neg hshort] at hres
            simp only [Option.isSome_none, Bool.false_eq_true, if_false,
              RingBuf.IsEmpty, List.isEmpty_nil, if_true] at hres
            match hll : mb.listBuffer.WriteTo (fun j c => w (1 + j) c) with
            | none => rw [hll] at hres; exact absurd hres (by simp)
            | some (a, e, l2) =>
              rw [hll] at hres
              simp only [Option.some.injEq] at hres
              subst hres
              exact iff_of_true (by trivial) (by omega)
  · intro h0 hch
    simp only [elastic.Buffer.Write, elastic.Buffer.ensureRing, h0,
      linkedlist.Buffer.IsEmpty, hch, List.isEmpty_nil, Option.isNone_none,
      Bool.and_self, if_true]
    split
    · simp
    · split
      · simp
      · simp

/-- Witness for C5 at concrete buffers: ring release on exact drain by
`Read`, no ring acquisition by `Read` or `WriteTo` on a ring-less buffer,
ring release by a fully accepting `WriteTo`, and re-acquisition by the next
`Write`. -/
theorem C5_read_writeto_drain_order_witness :
    (((elastic.Buffer.mk 3 (some (RingBuf.mk [1, 2] 4))
          (linkedlist.Buffer.mk [[5]] 1 1)).Read 2).2.ringBuffer = none ↔
        (RingBuf.mk [1, 2] 4).data.length ≤ 2) ∧
      ((elastic.Buffer.mk 3 none (linkedlist.Buffer.mk [] 0 0)).Read 1).2.ringBuffer =
        none ∧
      ((0, (none : Option GErr),
          elastic.Buffer.mk 3 none (linkedlist.Buffer.mk [] 0 0)) :
            Nat × Option GErr × elastic.Buffer).2.2.ringBuffer = none ∧
      (((3, (none : Option GErr),
          elastic.Buffer.mk 3 none (linkedlist.Buffer.mk [] 0 0)) :
            Nat × Option GErr × elastic.Buffer).2.2.ringBuffer = none ↔
        (RingBuf.mk [1, 2] 4).data.length ≤
          (acceptAll 0 (RingBuf.mk [1, 2] 4).data).1) ∧
      (((elastic.Buffer.mk 3 none (linkedlist.Buffer.mk [] 0 0)).Write
          [9]).2.2.ringBuffer).isSome = true :=
  ⟨(C5_read_writeto_drain_order
      (elastic.Buffer.mk 3 (some (RingBuf.mk [1, 2] 4)) (linkedlist.Buffer.mk [[5]] 1 1))
      2 (RingBuf.mk [1, 2] 4) [9] acceptAll).2.1 rfl,
   (C5_read_writeto_drain_order
      (elastic.Buffer.mk 3 none (linkedlist.Buffer.mk [] 0 0))
      1 (RingBuf.mk [] 0) [9] acceptAll).2.2.1 rfl,
   (C5_read_writeto_drain_order
      (elastic.Buffer.mk 3 none (linkedlist.Buffer.mk [] 0 0))
      0 (RingBuf.mk [] 0) [9] acceptAll).2.2.2.2.1 rfl
      (0, none, elastic.Buffer.mk 3 none (linkedlist.Buffer.mk [] 0 0)) (by decide),
   (C5_read_writeto_drain_order
      (elastic.Buffer.mk 3 (some (RingBuf.mk [1, 2] 4)) (linkedlist.Buffer.mk [[5]] 1 1))
      0 (RingBuf.mk [1, 2] 4) [9] acceptAll).2.2.2.2.2.1 rfl
      (3, none, elastic.Buffer.mk 3 none (linkedlist.Buffer.mk [] 0 0)) (by decide),
   (C5_read_writeto_drain_order
      (elastic.Buffer.mk 3 none (linkedlist.Buffer.mk [] 0 0))
      0 (RingBuf.mk [] 0) [9] acceptAll).2.2.2.2.2.2 rfl rfl⟩
